import Mathlib

/-!
# Verification of the indexmap raw-entry layer and set slice view

A shallow embedding of the repository's core data model (`src/map/core/raw_entry_v1.rs`
and `src/set/slice.rs`).  The Entry Store is a dense list of `(hash, key, value)`
records; the open-addressed Index Table is kept implicit and its lookup behaviour is
modelled from the spec's Core Engine contract (§4.1), since `core.rs` / `raw.rs` are
not part of the provided sources.  Machine hashes are modelled as `Nat`.
-/

set_option autoImplicit false

namespace IndexMapModel

/-- A record of the Entry Store: `Bucket { hash, key, value }` (spec §3 "Record"). -/
structure Bucket (K : Type) (V : Type) where
  hash : Nat
  key : K
  value : V
deriving Repr, DecidableEq

/-- The container: `hashFn` models the `BuildHasher` hashing capability
(a deterministic key-to-hash function), `equivFn` the `Equivalent` lookup
predicate `equivalent(lookup_key, stored_key)`, and `entries` the Entry Store.
The Index Table is implicit: its contents are determined by `entries` through
Core Engine invariants 1-3 (spec §3). -/
structure IndexMap (K : Type) (V : Type) where
  hashFn : K → Nat
  equivFn : K → K → Bool
  entries : List (Bucket K V)

/-- Modelled from the spec: Core Engine `locate(hash, equivalence)` (§4.1), the
contract behind the missing `core.rs` table lookups (`indices.get` /
`get_index_of` / `raw_entry`).  Probing the Index Table under `hash` visits
exactly the entries stored with that hash (invariant 3: every table entry
`(h, p)` has `entries[p].hash == h`), testing each candidate's stored key with
the caller-supplied predicate; the first match wins. -/
def locate {K V : Type} (entries : List (Bucket K V)) (hash : Nat)
    (is_match : K → Bool) : Option Nat :=
  entries.findIdx? fun b => b.hash == hash && is_match b.key

/-- `Bucket::refs` at a position: the `(&key, &value)` pair stored there. -/
def refsAt {K V : Type} (entries : List (Bucket K V)) (i : Nat) : Option (K × V) :=
  (entries[i]?).map fun b => (b.key, b.value)

/-- The candidate test used when looking a key up through the container's own
hashing and equivalence capabilities. -/
def matchesKey {K V : Type} (m : IndexMap K V) (key : K) (b : Bucket K V) : Bool :=
  b.hash == m.hashFn key && m.equivFn key b.key

/-- Modelled from the spec: `IndexMapCore::get_index_of(hash, key)` (missing
`core.rs`), i.e. `locate` with the container's default equivalence. -/
def get_index_of {K V : Type} (m : IndexMap K V) (hash : Nat) (key : K) : Option Nat :=
  locate m.entries hash fun k => m.equivFn key k

namespace RawEntryBuilder

/-- `RawEntryBuilder::from_hash` (src lines 212-221): probe with an arbitrary
predicate, then return the refs of the found bucket. -/
def from_hash {K V : Type} (m : IndexMap K V) (hash : Nat)
    (is_match : K → Bool) : Option (K × V) :=
  (locate m.entries hash is_match).bind fun i => refsAt m.entries i

/-- `RawEntryBuilder::from_key_hashed_nocheck` (src lines 202-209):
`get_index_of(hash, key)` then the refs at that index. -/
def from_key_hashed_nocheck {K V : Type} (m : IndexMap K V) (hash : Nat)
    (key : K) : Option (K × V) :=
  (get_index_of m hash key).bind fun i => refsAt m.entries i

/-- `RawEntryBuilder::from_key` (src lines 193-199) delegates to
`IndexMap::get_key_value`; that method lives in the missing `map.rs` and is
modelled from the spec: compute the hash via the container's hashing
capability, then look up with the container's default equivalence. -/
def from_key {K V : Type} (m : IndexMap K V) (key : K) : Option (K × V) :=
  from_key_hashed_nocheck m (m.hashFn key) key

end RawEntryBuilder

/-- `RawEntryMut`: the sum-typed handle of the mutable builder.  `Occupied`
carries the matched position (the `RawTableEntry`'s index); `Vacant` is the
authorization to append (the map itself is passed alongside explicitly). -/
inductive RawEntryMut where
  | Occupied (index : Nat)
  | Vacant
deriving Repr, DecidableEq

namespace RawEntryBuilderMut

/-- `RawEntryBuilderMut::from_hash` (src lines 258-273): `core.raw_entry(hash,
is_match)` (modelled by `locate`) yields an occupied handle on success and a
vacant one otherwise. -/
def from_hash {K V : Type} (m : IndexMap K V) (hash : Nat)
    (is_match : K → Bool) : RawEntryMut :=
  match locate m.entries hash is_match with
  | some i => .Occupied i
  | none => .Vacant

/-- `RawEntryBuilderMut::from_key_hashed_nocheck` (src lines 250-255):
`from_hash` with the equivalence test for the given key. -/
def from_key_hashed_nocheck {K V : Type} (m : IndexMap K V) (hash : Nat)
    (key : K) : RawEntryMut :=
  from_hash m hash fun k => m.equivFn key k

/-- `RawEntryBuilderMut::from_key` (src lines 240-247): hash the key via the
container's capability, then `from_key_hashed_nocheck`. -/
def from_key {K V : Type} (m : IndexMap K V) (key : K) : RawEntryMut :=
  from_key_hashed_nocheck m (m.hashFn key) key

end RawEntryBuilderMut

/-- Modelled from the spec: Core Engine `swap_remove(position)` (§4.1), the
missing `core.rs` `swap_remove_finish`.  Returns the removed `(key, value)`;
the last record fills the vacated position (a swap with the last element
followed by popping it), and the relocated record's Index Table entry is
repointed (implicit here).  `none` only when the position is out of bounds,
which an occupied handle rules out. -/
def swap_remove_finish {K V : Type} (m : IndexMap K V) (i : Nat) :
    Option ((K × V) × IndexMap K V) :=
  (m.entries[i]?).bind fun b =>
    (m.entries.getLast?).map fun lastb =>
      ((b.key, b.value), { m with entries := (m.entries.set i lastb).dropLast })

/-- Modelled from the spec: Core Engine `shift_remove(position)` (§4.1), the
missing `core.rs` `shift_remove_finish`.  Returns the removed `(key, value)`;
every record at a greater position shifts down by one (and the Index Table
entries pointing past the position are decremented, implicit here). -/
def shift_remove_finish {K V : Type} (m : IndexMap K V) (i : Nat) :
    Option ((K × V) × IndexMap K V) :=
  (m.entries[i]?).map fun b => ((b.key, b.value), { m with entries := m.entries.eraseIdx i })

namespace RawOccupiedEntryMut

/-- `RawOccupiedEntryMut::insert` (src lines 427-429): `mem::replace` on the
value of the bucket the handle points at; returns the old value.  The handle's
index is in bounds by construction, so the `Option` is always `some` there. -/
def insert {K V : Type} (m : IndexMap K V) (i : Nat) (value : V) :
    Option (V × IndexMap K V) :=
  (m.entries[i]?).map fun b =>
    (b.value, { m with entries := m.entries.set i { b with value := value } })

/-- `RawOccupiedEntryMut::swap_remove_entry` (src lines 489-492):
`raw.remove_index()` surrenders the handle's index, then `swap_remove_finish`. -/
def swap_remove_entry {K V : Type} (m : IndexMap K V) (i : Nat) :
    Option ((K × V) × IndexMap K V) :=
  swap_remove_finish m i

/-- `RawOccupiedEntryMut::shift_remove_entry` (src lines 501-504):
`raw.remove_index()` surrenders the handle's index, then `shift_remove_finish`. -/
def shift_remove_entry {K V : Type} (m : IndexMap K V) (i : Nat) :
    Option ((K × V) × IndexMap K V) :=
  shift_remove_finish m i

end RawOccupiedEntryMut

namespace RawVacantEntryMut

/-- `RawVacantEntryMut::index` (src lines 522-524): `map.indices.len()`.  The
Index Table is implicit here; by Core Engine invariant 1 (spec §3,
`count(Index Table) == count(Entry Store)`) its length equals the Entry
Store's. -/
def index {K V : Type} (m : IndexMap K V) : Nat :=
  m.entries.length

/-- `RawVacantEntryMut::insert_hashed_nocheck` (src lines 540-548): insert the
Index Table entry for position `indices.len()`, then `push_entry` (missing
`core.rs`, spec §4.1 `append`: push the record to the end of the Entry Store);
returns the refs of the newly stored key and value. -/
def insert_hashed_nocheck {K V : Type} (m : IndexMap K V) (hash : Nat) (key : K)
    (value : V) : (K × V) × IndexMap K V :=
  ((key, value), { m with entries := m.entries ++ [⟨hash, key, value⟩] })

/-- `RawVacantEntryMut::insert` (src lines 528-536): hash the key with the
container's hash builder, then `insert_hashed_nocheck`. -/
def insert {K V : Type} (m : IndexMap K V) (key : K) (value : V) :
    (K × V) × IndexMap K V :=
  insert_hashed_nocheck m (m.hashFn key) key value

end RawVacantEntryMut

/-- A record of the set's Entry Store: `Bucket<T>` specialised to unit values,
of which the slice view exposes only the key (`Bucket::key_ref`). -/
structure SetBucket (T : Type) where
  hash : Nat
  key : T
deriving Repr, DecidableEq

/-- `indexmap::set::Slice`: a borrowed contiguous run of set records
(src `set/slice.rs` lines 16-19). -/
structure SetSlice (T : Type) where
  entries : List (SetBucket T)
deriving Repr, DecidableEq

/-- Rust `Iterator::eq` on two key streams: element-wise equality, false as
soon as one side runs out before the other. -/
def iterEq {T : Type} [BEq T] : List T → List T → Bool
  | [], [] => true
  | _ :: _, [] => false
  | [], _ :: _ => false
  | x :: xs, y :: ys => x == y && iterEq xs ys

/-- Rust `Iterator::cmp` on two key streams: compare element-wise; the first
non-equal comparison decides, and a stream that runs out first is less. -/
def iterCmp {T : Type} [Ord T] : List T → List T → Ordering
  | [], [] => .eq
  | [], _ :: _ => .lt
  | _ :: _, [] => .gt
  | x :: xs, y :: ys =>
    match compare x y with
    | .eq => iterCmp xs ys
    | o => o

namespace SetSlice

/-- `Slice::len` (src lines 46-48). -/
def len {T : Type} (s : SetSlice T) : Nat :=
  s.entries.length

/-- The value stream of `Slice::iter` (src lines 101-105): the keys of the
bucket run, in storage order. -/
def iterKeys {T : Type} (s : SetSlice T) : List T :=
  s.entries.map SetBucket.key

/-- `impl PartialEq for Slice` (src lines 129-133):
`self.len() == other.len() && self.iter().eq(other)`. -/
def beq {T : Type} [BEq T] (a b : SetSlice T) : Bool :=
  a.len == b.len && iterEq a.iterKeys b.iterKeys

/-- `impl Ord for Slice` (src lines 143-147): `self.iter().cmp(other)`. -/
def cmp {T : Type} [Ord T] (a b : SetSlice T) : Ordering :=
  iterCmp a.iterKeys b.iterKeys

/-- `impl Hash for Slice` (src lines 149-156), with the `Hasher` modelled as
the stream of values fed to it: `self.len().hash(state)` then each value's
hash in iteration order. -/
def hashWrite {T : Type} (elemHash : T → Nat) (s : SetSlice T)
    (state : List Nat) : List Nat :=
  s.iterKeys.foldl (fun st v => st ++ [elemHash v]) (state ++ [s.len])

/-- `Slice::get_index` (src lines 58-60). -/
def get_index {T : Type} (s : SetSlice T) (i : Nat) : Option T :=
  (s.entries[i]?).map SetBucket.key

/-- `Slice::split_at` (src lines 75-78), which forwards to core
`slice::split_at`; the panic on `index > len` is modelled as `none`. -/
def split_at {T : Type} (s : SetSlice T) (i : Nat) :
    Option (SetSlice T × SetSlice T) :=
  if i ≤ s.entries.length then
    some (⟨s.entries.take i⟩, ⟨s.entries.drop i⟩)
  else
    none

/-- `Slice::split_first` (src lines 82-88). -/
def split_first {T : Type} (s : SetSlice T) : Option (T × SetSlice T) :=
  match s.entries with
  | [] => none
  | b :: rest => some (b.key, ⟨rest⟩)

/-- `Slice::split_last` (src lines 92-98). -/
def split_last {T : Type} (s : SetSlice T) : Option (T × SetSlice T) :=
  match s.entries.getLast? with
  | none => none
  | some b => some (b.key, ⟨s.entries.dropLast⟩)

end SetSlice

/-- A concrete hashing capability for the witness maps. -/
def sampleHash (s : String) : Nat :=
  s.length

/-- An empty `IndexMap String Nat` with the sample hashing capability and the
default string equivalence. -/
def memptyMap : IndexMap String Nat :=
  ⟨sampleHash, fun a b => a == b, []⟩

/-- The map of the spec's concrete scenarios: `("a",100)`, `("b",200)`,
`("c",300)` inserted in that order through vacant raw entries. -/
def mapABC : IndexMap String Nat :=
  (RawVacantEntryMut.insert
    (RawVacantEntryMut.insert
      (RawVacantEntryMut.insert memptyMap "a" 100).2 "b" 200).2 "c" 300).2

/-! ## Helper lemmas -/

/-- `Iterator::eq` decides list equality when the element equality is lawful. -/
theorem iterEq_iff_eq {T : Type} [BEq T] [LawfulBEq T] (xs ys : List T) :
    iterEq xs ys = true ↔ xs = ys := by
  induction xs generalizing ys with
  | nil => cases ys <;> simp [iterEq]
  | cons x xs ih =>
    cases ys with
    | nil => simp [iterEq]
    | cons y ys => simp [iterEq, ih]

/-- `Iterator::cmp` returns `eq` exactly on equal key streams. -/
theorem iterCmp_eq_iff_eq {T : Type} [LinearOrder T] (xs ys : List T) :
    iterCmp xs ys = Ordering.eq ↔ xs = ys := by
  induction xs generalizing ys with
  | nil => cases ys <;> simp [iterCmp]
  | cons x xs ih =>
    cases ys with
    | nil => simp [iterCmp]
    | cons y ys =>
      simp only [iterCmp]
      cases h : compare x y with
      | lt =>
        simp only [reduceCtorEq, List.cons.injEq, false_iff, not_and]
        intro hxy
        exact absurd hxy (ne_of_lt (compare_lt_iff_lt.mp h))
      | eq =>
        have hxy : x = y := compare_eq_iff_eq.mp h
        subst hxy
        simp [ih]
      | gt =>
        simp only [reduceCtorEq, List.cons.injEq, false_iff, not_and]
        intro hxy
        exact absurd hxy.symm (ne_of_lt (compare_gt_iff_gt.mp h))

/-- `Iterator::cmp` returns `lt` exactly on lexicographically smaller streams. -/
theorem iterCmp_lt_iff_lex {T : Type} [LinearOrder T] (xs ys : List T) :
    iterCmp xs ys = Ordering.lt ↔ List.Lex (· < ·) xs ys := by
  induction xs generalizing ys with
  | nil =>
    cases ys with
    | nil => simp only [iterCmp, reduceCtorEq, false_iff]; intro h; cases h
    | cons y ys =>
      simp only [iterCmp, true_iff]
      exact List.Lex.nil
  | cons x xs ih =>
    cases ys with
    | nil => simp only [iterCmp, reduceCtorEq, false_iff]; intro h; cases h
    | cons y ys =>
      simp only [iterCmp]
      cases h : compare x y with
      | lt =>
        simp only [true_iff]
        exact List.Lex.rel (compare_lt_iff_lt.mp h)
      | eq =>
        have hxy : x = y := compare_eq_iff_eq.mp h
        subst hxy
        rw [ih]
        constructor
        · exact List.Lex.cons
        · intro hlex
          cases hlex with
          | cons hl => exact hl
          | rel hr => exact absurd hr (lt_irrefl _)
      | gt =>
        have hyx : y < x := compare_gt_iff_gt.mp h
        simp only [reduceCtorEq, false_iff]
        intro hlex
        cases hlex with
        | cons hl => exact absurd hyx (lt_irrefl _)
        | rel hr => exact absurd hyx (not_lt_of_lt hr)

/-- `Iterator::cmp` returns `gt` exactly when the other stream is smaller. -/
theorem iterCmp_gt_iff_lex {T : Type} [LinearOrder T] (xs ys : List T) :
    iterCmp xs ys = Ordering.gt ↔ List.Lex (· < ·) ys xs := by
  induction xs generalizing ys with
  | nil =>
    cases ys with
    | nil => simp only [iterCmp, reduceCtorEq, false_iff]; intro h; cases h
    | cons y ys => simp only [iterCmp, reduceCtorEq, false_iff]; intro h; cases h
  | cons x xs ih =>
    cases ys with
    | nil =>
      simp only [iterCmp, true_iff]
      exact List.Lex.nil
    | cons y ys =>
      simp only [iterCmp]
      cases h : compare x y with
      | lt =>
        have hxy : x < y := compare_lt_iff_lt.mp h
        simp only [reduceCtorEq, false_iff]
        intro hlex
        cases hlex with
        | cons hl => exact absurd hxy (lt_irrefl _)
        | rel hr => exact absurd hxy (not_lt_of_lt hr)
      | eq =>
        have hxy : x = y := compare_eq_iff_eq.mp h
        subst hxy
        rw [ih]
        constructor
        · exact List.Lex.cons
        · intro hlex
          cases hlex with
          | cons hl => exact hl
          | rel hr => exact absurd hr (lt_irrefl _)
      | gt =>
        simp only [true_iff]
        exact List.Lex.rel (compare_gt_iff_gt.mp h)

/-- Feeding a whole stream element-wise into the modelled hasher appends the
element hashes in order. -/
theorem foldl_hash_append {T : Type} (f : T → Nat) (l : List T) (init : List Nat) :
    l.foldl (fun st v => st ++ [f v]) init = init ++ l.map f := by
  induction l generalizing init with
  | nil => simp
  | cons x xs ih => simp [ih]

/-- The keys of a slice, indexed: `iterKeys` at `i` is the key of the bucket
at `i`. -/
theorem iterKeys_getElem? {T : Type} (s : SetSlice T) (i : Nat) :
    s.iterKeys[i]? = s.get_index i := by
  simp [SetSlice.iterKeys, SetSlice.get_index, List.getElem?_map]

/-- `locate` misses exactly when no record both carries the probed hash and
satisfies the predicate. -/
theorem locate_eq_none_iff {K V : Type} (entries : List (Bucket K V)) (hash : Nat)
    (p : K → Bool) :
    locate entries hash p = none ↔
      ∀ b ∈ entries, (b.hash == hash && p b.key) = false := by
  simp [locate, List.findIdx?_eq_none_iff]

/-- Appending a matching record to a store in which `locate` missed makes
`locate` find it at the old length. -/
theorem locate_append_of_none {K V : Type} (entries : List (Bucket K V)) (hash : Nat)
    (p : K → Bool) (b : Bucket K V) (h : locate entries hash p = none)
    (hb : (b.hash == hash && p b.key) = true) :
    locate (entries ++ [b]) hash p = some entries.length := by
  unfold locate at h ⊢
  rw [List.findIdx?_append, h]
  simp [List.findIdx?_cons, hb]

/-! ## Claims -/

/-- C8: `Slice::split_at(i)` fails with the out-of-range condition exactly when
`i > len`, and under `i ≤ len` it returns the two halves of the slice (their
concatenation is the slice, and the first half has length `i`). -/
theorem c8_split_at_spec {T : Type} (s : SetSlice T) (i : Nat) :
    (SetSlice.split_at s i = none ↔ s.len < i) ∧
    (i ≤ s.len →
      ∃ x y, SetSlice.split_at s i = some (x, y) ∧
        x.entries ++ y.entries = s.entries ∧ x.len = i ∧ y.len = s.len - i) := by
  constructor
  · unfold SetSlice.split_at SetSlice.len
    split
    · simp only [reduceCtorEq, false_iff, not_lt]
      omega
    · simp only [true_iff]
      omega
  · intro h
    refine ⟨⟨s.entries.take i⟩, ⟨s.entries.drop i⟩, ?_, ?_, ?_, ?_⟩
    · unfold SetSlice.split_at
      rw [if_pos (show i ≤ s.entries.length from h)]
    · exact List.take_append_drop i s.entries
    · unfold SetSlice.len at h ⊢
      simp only [List.length_take]
      omega
    · unfold SetSlice.len
      simp [List.length_drop]

/-- C8 witness at a concrete two-element slice split at 1. -/
theorem c8_split_at_spec_witness :
    ∃ x y, SetSlice.split_at (⟨[⟨0, 5⟩, ⟨1, 6⟩]⟩ : SetSlice Nat) 1 = some (x, y) ∧
      x.entries ++ y.entries = [⟨0, 5⟩, ⟨1, 6⟩] ∧ x.len = 1 ∧
      y.len = (⟨[⟨0, 5⟩, ⟨1, 6⟩]⟩ : SetSlice Nat).len - 1 :=
  (c8_split_at_spec ⟨[⟨0, 5⟩, ⟨1, 6⟩]⟩ 1).2 (by decide)

/-- C10: `split_first` and `split_last` return `none` exactly on the empty
slice; on a non-empty slice, `split_first` yields the element at position 0
with the remaining `len - 1` elements in storage order, and `split_last`
yields the element at position `len - 1` with the preceding elements in
order. -/
theorem c10_split_first_last_spec {T : Type} (s : SetSlice T) :
    (SetSlice.split_first s = none ↔ s.len = 0) ∧
    (SetSlice.split_last s = none ↔ s.len = 0) ∧
    (∀ x rest, SetSlice.split_first s = some (x, rest) →
      s.get_index 0 = some x ∧ rest.len = s.len - 1 ∧
      ∀ j, rest.get_index j = s.get_index (j + 1)) ∧
    (∀ x rest, SetSlice.split_last s = some (x, rest) →
      s.get_index (s.len - 1) = some x ∧ rest.len = s.len - 1 ∧
      ∀ j, j < s.len - 1 → rest.get_index j = s.get_index j) := by
  obtain ⟨entries⟩ := s
  refine ⟨?_, ?_, ?_, ?_⟩
  · cases entries <;> simp [SetSlice.split_first, SetSlice.len]
  · unfold SetSlice.split_last SetSlice.len
    cases h : entries.getLast? with
    | none =>
      simp [List.getLast?_eq_none_iff.mp h]
    | some b =>
      have : entries ≠ [] := by
        intro he
        rw [he] at h
        simp at h
      simp only [reduceCtorEq, false_iff]
      intro hlen
      exact absurd (List.length_eq_zero.mp hlen) this
  · intro x rest hs
    cases entries with
    | nil => simp [SetSlice.split_first] at hs
    | cons b tl =>
      simp only [SetSlice.split_first, Option.some.injEq, Prod.mk.injEq] at hs
      obtain ⟨hx, hrest⟩ := hs
      subst hx
      subst hrest
      refine ⟨by simp [SetSlice.get_index], by simp [SetSlice.len], ?_⟩
      intro j
      simp [SetSlice.get_index]
  · intro x rest hs
    unfold SetSlice.split_last at hs
    cases h : entries.getLast? with
    | none => rw [h] at hs; simp at hs
    | some b =>
      rw [h] at hs
      simp only [Option.some.injEq, Prod.mk.injEq] at hs
      obtain ⟨hx, hrest⟩ := hs
      subst hx
      subst hrest
      have hget : entries[entries.length - 1]? = some b := by
        rw [← List.getLast?_eq_getElem?]
        exact h
      refine ⟨?_, by simp [SetSlice.len, List.length_dropLast], ?_⟩
      · simp only [SetSlice.get_index, SetSlice.len, hget, Option.map_some']
      · intro j hj
        simp only [SetSlice.get_index, SetSlice.len] at hj ⊢
        rw [List.getElem?_dropLast, if_pos hj]

/-- C10 witness: the characterization applied to a concrete two-element
slice. -/
theorem c10_split_first_last_spec_witness :
    (⟨[⟨0, 5⟩, ⟨1, 6⟩]⟩ : SetSlice Nat).get_index 0 = some 5 ∧
      (⟨[⟨1, 6⟩]⟩ : SetSlice Nat).len = (⟨[⟨0, 5⟩, ⟨1, 6⟩]⟩ : SetSlice Nat).len - 1 ∧
      ∀ j, (⟨[⟨1, 6⟩]⟩ : SetSlice Nat).get_index j =
        (⟨[⟨0, 5⟩, ⟨1, 6⟩]⟩ : SetSlice Nat).get_index (j + 1) :=
  (c10_split_first_last_spec ⟨[⟨0, 5⟩, ⟨1, 6⟩]⟩).2.2.1 5 ⟨[⟨1, 6⟩]⟩ (by decide)

/-- C2: two set slices are equal iff they have the same length and are
element-wise equal in storage order; slice ordering is lexicographic by
element (in all three outcomes of `cmp`); and slice hashing feeds the length
and then each element's hash, in storage order, into the hasher. -/
theorem c2_slice_eq_ord_hash {T : Type} [LinearOrder T] [BEq T] [LawfulBEq T]
    (a b : SetSlice T) :
    (SetSlice.beq a b = true ↔
      a.len = b.len ∧ ∀ i, i < a.len → a.get_index i = b.get_index i) ∧
    (SetSlice.cmp a b = Ordering.lt ↔ List.Lex (· < ·) a.iterKeys b.iterKeys) ∧
    (SetSlice.cmp a b = Ordering.eq ↔ a.iterKeys = b.iterKeys) ∧
    (SetSlice.cmp a b = Ordering.gt ↔ List.Lex (· < ·) b.iterKeys a.iterKeys) ∧
    (∀ (elemHash : T → Nat) (state : List Nat),
      SetSlice.hashWrite elemHash a state = state ++ [a.len] ++ a.iterKeys.map elemHash) := by
  refine ⟨?_, iterCmp_lt_iff_lex _ _, iterCmp_eq_iff_eq _ _, iterCmp_gt_iff_lex _ _, ?_⟩
  · unfold SetSlice.beq
    rw [Bool.and_eq_true, beq_iff_eq, iterEq_iff_eq]
    constructor
    · rintro ⟨hlen, hkeys⟩
      refine ⟨hlen, ?_⟩
      intro i _
      rw [← iterKeys_getElem?, ← iterKeys_getElem?, hkeys]
    · rintro ⟨hlen, hpt⟩
      refine ⟨hlen, ?_⟩
      apply List.ext_getElem?
      intro i
      by_cases hi : i < a.len
      · rw [iterKeys_getElem?, iterKeys_getElem?]
        exact hpt i hi
      · have ha : a.iterKeys.length ≤ i := by
          simpa [SetSlice.iterKeys, SetSlice.len] using Nat.le_of_not_lt hi
        have hb : b.iterKeys.length ≤ i := by
          have : b.len ≤ i := hlen ▸ Nat.le_of_not_lt hi
          simpa [SetSlice.iterKeys, SetSlice.len] using this
        rw [List.getElem?_eq_none ha, List.getElem?_eq_none hb]
  · intro elemHash state
    unfold SetSlice.hashWrite
    rw [foldl_hash_append]

/-- C2 witness: the order-sensitive characterization at the concrete slices
over `[1, 2]` and `[2, 1]`. -/
theorem c2_slice_eq_ord_hash_witness :
    (SetSlice.beq (⟨[⟨1, 1⟩, ⟨2, 2⟩]⟩ : SetSlice Nat) ⟨[⟨2, 2⟩, ⟨1, 1⟩]⟩ = true ↔
      (⟨[⟨1, 1⟩, ⟨2, 2⟩]⟩ : SetSlice Nat).len = (⟨[⟨2, 2⟩, ⟨1, 1⟩]⟩ : SetSlice Nat).len ∧
      ∀ i, i < (⟨[⟨1, 1⟩, ⟨2, 2⟩]⟩ : SetSlice Nat).len →
        (⟨[⟨1, 1⟩, ⟨2, 2⟩]⟩ : SetSlice Nat).get_index i =
          (⟨[⟨2, 2⟩, ⟨1, 1⟩]⟩ : SetSlice Nat).get_index i) :=
  (c2_slice_eq_ord_hash ⟨[⟨1, 1⟩, ⟨2, 2⟩]⟩ ⟨[⟨2, 2⟩, ⟨1, 1⟩]⟩).1

/-- C1: after obtaining a Vacant raw entry for `k` on the mutable builder and
calling `insert(k, v)`, an immediate immutable raw lookup by `k` (`from_key`)
returns `Some((k, v))`; the container's equivalence is assumed reflexive
at `k`, as the `Equivalent` contract requires. -/
theorem c1_vacant_insert_lookup {K V : Type} (m : IndexMap K V) (k : K) (v : V)
    (hvac : RawEntryBuilderMut.from_key m k = RawEntryMut.Vacant)
    (hrefl : m.equivFn k k = true) :
    RawEntryBuilder.from_key (RawVacantEntryMut.insert m k v).2 k = some (k, v) := by
  have hnone : locate m.entries (m.hashFn k) (fun x => m.equivFn k x) = none := by
    unfold RawEntryBuilderMut.from_key RawEntryBuilderMut.from_key_hashed_nocheck
      RawEntryBuilderMut.from_hash at hvac
    cases hl : locate m.entries (m.hashFn k) (fun x => m.equivFn k x) with
    | none => rfl
    | some i => rw [hl] at hvac; cases hvac
  have happ : locate (m.entries ++ [⟨m.hashFn k, k, v⟩]) (m.hashFn k)
      (fun x => m.equivFn k x) = some m.entries.length :=
    locate_append_of_none _ _ _ _ hnone (by simp [hrefl])
  show (locate (m.entries ++ [⟨m.hashFn k, k, v⟩]) (m.hashFn k)
      (fun x => m.equivFn k x)).bind
    (fun i => refsAt (m.entries ++ [⟨m.hashFn k, k, v⟩]) i) = some (k, v)
  rw [happ]
  show refsAt (m.entries ++ [⟨m.hashFn k, k, v⟩]) m.entries.length = some (k, v)
  unfold refsAt
  rw [List.getElem?_concat_length]
  rfl

/-- C1 witness: inserting `("d", 4000)` through the vacant raw entry of
`mapABC` and looking `"d"` up again. -/
theorem c1_vacant_insert_lookup_witness :
    RawEntryBuilder.from_key (RawVacantEntryMut.insert mapABC "d" 4000).2 "d" =
      some ("d", 4000) :=
  c1_vacant_insert_lookup mapABC "d" 4000 (by decide) (by decide)

/-- C5: on a map whose records carry the hashes the container would compute
(invariant 3) and whose key `k` is present, the no-check immutable lookup
with any hash other than the container's hash of `k` returns `None`: the
record is unreachable through that path, and no crash occurs. -/
theorem c5_wrong_hash_nocheck_none {K V : Type} (m : IndexMap K V) (k : K) (h : Nat)
    (hwf : ∀ b ∈ m.entries, b.hash = m.hashFn b.key)
    (hcompat : ∀ x, m.equivFn k x = true → m.hashFn x = m.hashFn k)
    (_hmem : (get_index_of m (m.hashFn k) k).isSome = true)
    (hne : h ≠ m.hashFn k) :
    RawEntryBuilder.from_key_hashed_nocheck m h k = none := by
  have hloc : get_index_of m h k = none := by
    unfold get_index_of
    rw [locate_eq_none_iff]
    intro b hb
    by_contra hcontra
    rw [Bool.not_eq_false, Bool.and_eq_true, beq_iff_eq] at hcontra
    obtain ⟨hbh, heq⟩ := hcontra
    exact hne (by rw [← hbh, hwf b hb, hcompat b.key heq])
  unfold RawEntryBuilder.from_key_hashed_nocheck
  rw [hloc]
  rfl

/-- C5 witness: looking `"b"` up in `mapABC` with the wrong hash 7. -/
theorem c5_wrong_hash_nocheck_none_witness :
    RawEntryBuilder.from_key_hashed_nocheck mapABC 7 "b" = none :=
  c5_wrong_hash_nocheck_none mapABC "b" 7 (by decide)
    (fun x hx => by
      have hbx : "b" = x := beq_iff_eq.mp hx
      rw [← hbx])
    (by decide) (by decide)

/-- C6: when the mutable raw-entry builder finds no equivalent key, the
Vacant handle's `index()` equals the map's current length, and `insert`
appends the new record at exactly that position while increasing the length
by exactly 1. -/
theorem c6_vacant_index_insert {K V : Type} (m : IndexMap K V) (h : Nat)
    (pred : K → Bool)
    (_hvac : RawEntryBuilderMut.from_hash m h pred = RawEntryMut.Vacant)
    (k : K) (v : V) :
    RawVacantEntryMut.index m = m.entries.length ∧
    (RawVacantEntryMut.insert m k v).2.entries[RawVacantEntryMut.index m]? =
      some ⟨m.hashFn k, k, v⟩ ∧
    (RawVacantEntryMut.insert m k v).2.entries.length = m.entries.length + 1 := by
  refine ⟨rfl, ?_, ?_⟩
  · show (m.entries ++ [(⟨m.hashFn k, k, v⟩ : Bucket K V)])[m.entries.length]? =
      some ⟨m.hashFn k, k, v⟩
    exact List.getElem?_concat_length _ _
  · show (m.entries ++ [(⟨m.hashFn k, k, v⟩ : Bucket K V)]).length = m.entries.length + 1
    simp

/-- C6 witness: spec scenario C, a vacant raw entry obtained with
`from_hash(hash_of("d"), predicate)` on `mapABC` and `insert("d", 4000)`. -/
theorem c6_vacant_index_insert_witness :
    RawVacantEntryMut.index mapABC = mapABC.entries.length ∧
    (RawVacantEntryMut.insert mapABC "d" 4000).2.entries[RawVacantEntryMut.index mapABC]? =
      some ⟨mapABC.hashFn "d", "d", 4000⟩ ∧
    (RawVacantEntryMut.insert mapABC "d" 4000).2.entries.length =
      mapABC.entries.length + 1 :=
  c6_vacant_index_insert mapABC (sampleHash "d") (fun q => q == "d") (by decide) "d" 4000

/-- C7: for both builders, `from_key(key)` returns the same result as hashing
the key via the container's hashing capability and calling `from_hash` with
that hash and the container's default equivalence predicate. -/
theorem c7_from_key_eq_hash_then_from_hash {K V : Type} (m : IndexMap K V) (k : K) :
    RawEntryBuilder.from_key m k =
      RawEntryBuilder.from_hash m (m.hashFn k) (fun x => m.equivFn k x) ∧
    RawEntryBuilderMut.from_key m k =
      RawEntryBuilderMut.from_hash m (m.hashFn k) (fun x => m.equivFn k x) :=
  ⟨rfl, rfl⟩

/-- C3: removing an Occupied raw entry at position `p` of a map of length `n`
with `swap_remove_entry` returns the stored pair, yields length `n - 1`, moves
the element formerly at `n - 1` to `p` when `p` is not last, and a subsequent
lookup for the removed key returns `None` (no other record being equivalent to
that key, as a well-formed map guarantees). -/
theorem c3_swap_remove_entry_spec {K V : Type} (m : IndexMap K V) (p : Nat)
    (b : Bucket K V) (hp : m.entries[p]? = some b)
    (huniq : ∀ j (hj : j < m.entries.length), j ≠ p →
      matchesKey m b.key (m.entries.get ⟨j, hj⟩) = false) :
    ∃ m', RawOccupiedEntryMut.swap_remove_entry m p = some ((b.key, b.value), m') ∧
      m'.entries.length = m.entries.length - 1 ∧
      (p ≠ m.entries.length - 1 →
        m'.entries[p]? = m.entries[m.entries.length - 1]?) ∧
      RawEntryBuilder.from_key m' b.key = none := by
  have hplt : p < m.entries.length := by
    by_contra hge
    rw [List.getElem?_eq_none (Nat.le_of_not_lt hge)] at hp
    cases hp
  have hne : m.entries ≠ [] := by
    intro he
    rw [he] at hplt
    exact absurd hplt (Nat.not_lt_zero p)
  obtain ⟨lastb, hlast⟩ : ∃ lb, m.entries.getLast? = some lb := by
    cases hg : m.entries.getLast? with
    | none => exact absurd (List.getLast?_eq_none_iff.mp hg) hne
    | some lb => exact ⟨lb, rfl⟩
  have hlastget : m.entries[m.entries.length - 1]? = some lastb := by
    rw [← List.getLast?_eq_getElem?]
    exact hlast
  refine ⟨{ m with entries := (m.entries.set p lastb).dropLast }, ?_, ?_, ?_, ?_⟩
  · unfold RawOccupiedEntryMut.swap_remove_entry swap_remove_finish
    rw [hp, hlast]
    rfl
  · show ((m.entries.set p lastb).dropLast).length = m.entries.length - 1
    simp [List.length_dropLast, List.length_set]
  · intro hpne
    have hplt1 : p < m.entries.length - 1 := by omega
    show ((m.entries.set p lastb).dropLast)[p]? = m.entries[m.entries.length - 1]?
    rw [List.getElem?_dropLast, List.length_set, if_pos hplt1, List.getElem?_set,
      if_pos rfl, if_pos hplt, hlastget]
  · have hlocnone : locate ((m.entries.set p lastb).dropLast) (m.hashFn b.key)
        (fun x => m.equivFn b.key x) = none := by
      rw [locate_eq_none_iff]
      intro b' hb'
      obtain ⟨j, hjlt, hjget⟩ := List.mem_iff_getElem.mp hb'
      have hjlen : j < m.entries.length - 1 := by
        have := hjlt
        simp [List.length_dropLast, List.length_set] at this
        exact this
      have hjq : ((m.entries.set p lastb).dropLast)[j]? = some b' :=
        hjget ▸ List.getElem?_eq_getElem hjlt
      rw [List.getElem?_dropLast, List.length_set, if_pos hjlen,
        List.getElem?_set] at hjq
      show matchesKey m b.key b' = false
      by_cases hpj : p = j
      · rw [if_pos hpj, if_pos hplt] at hjq
        have hb'last : b' = lastb := by
          injection hjq with hq
          exact hq.symm
        subst hb'last
        have hlastne : m.entries.length - 1 ≠ p := by omega
        have hlastlt : m.entries.length - 1 < m.entries.length := by omega
        have hgetlast : m.entries.get ⟨m.entries.length - 1, hlastlt⟩ = b' := by
          have := List.getElem?_eq_getElem hlastlt
          rw [hlastget] at this
          injection this with hq
          exact hq.symm
        rw [← hgetlast]
        exact huniq (m.entries.length - 1) hlastlt hlastne
      · rw [if_neg hpj] at hjq
        have hjlt2 : j < m.entries.length := by omega
        have hget : m.entries.get ⟨j, hjlt2⟩ = b' := by
          have := List.getElem?_eq_getElem hjlt2
          rw [hjq] at this
          injection this with hq
          exact hq.symm
        rw [← hget]
        exact huniq j hjlt2 (fun hjp => hpj hjp.symm)
    show (locate ((m.entries.set p lastb).dropLast) (m.hashFn b.key)
        (fun x => m.equivFn b.key x)).bind
      (fun i => refsAt ((m.entries.set p lastb).dropLast) i) = none
    rw [hlocnone]
    rfl

/-- C3 witness: swap-removing position 1 (key `"b"`) of `mapABC`. -/
theorem c3_swap_remove_entry_spec_witness :
    ∃ m', RawOccupiedEntryMut.swap_remove_entry mapABC 1 = some (("b", 200), m') ∧
      m'.entries.length = mapABC.entries.length - 1 ∧
      (1 ≠ mapABC.entries.length - 1 →
        m'.entries[1]? = mapABC.entries[mapABC.entries.length - 1]?) ∧
      RawEntryBuilder.from_key m' "b" = none :=
  c3_swap_remove_entry_spec mapABC 1 ⟨1, "b", 200⟩ (by decide) (by decide)

/-- C4: removing an Occupied raw entry at position `p` with
`shift_remove_entry` returns the stored pair, yields length `n - 1`, moves
every element previously at a position greater than `p` down by exactly one,
and preserves the relative order of all surviving elements (positions below
`p` are untouched); in particular, spec scenario A: on the map built from
`("a",100)`, `("b",200)`, `("c",300)` in that order, `shift_remove` on
`"b"`'s occupied raw entry returns `("b", 200)`, the resulting order is
`[("a",100), ("c",300)]`, the length is 2, and a raw lookup for `"b"` is
`None`. -/
theorem c4_shift_remove_entry_spec :
    (∀ (K V : Type) (m : IndexMap K V) (p : Nat) (b : Bucket K V),
      m.entries[p]? = some b →
      ∃ m', RawOccupiedEntryMut.shift_remove_entry m p = some ((b.key, b.value), m') ∧
        m'.entries.length = m.entries.length - 1 ∧
        (∀ j, j < p → m'.entries[j]? = m.entries[j]?) ∧
        (∀ j, p < j → j < m.entries.length → m'.entries[j - 1]? = m.entries[j]?)) ∧
    (∃ mA, RawOccupiedEntryMut.shift_remove_entry mapABC 1 = some (("b", 200), mA) ∧
      mA.entries = [⟨1, "a", 100⟩, ⟨1, "c", 300⟩] ∧
      mA.entries.length = 2 ∧
      RawEntryBuilder.from_key mA "b" = none ∧
      RawEntryBuilderMut.from_key mapABC "b" = RawEntryMut.Occupied 1) := by
  constructor
  · intro K V m p b hp
    have hplt : p < m.entries.length := by
      by_contra hge
      rw [List.getElem?_eq_none (Nat.le_of_not_lt hge)] at hp
      cases hp
    refine ⟨{ m with entries := m.entries.eraseIdx p }, ?_, ?_, ?_, ?_⟩
    · unfold RawOccupiedEntryMut.shift_remove_entry shift_remove_finish
      rw [hp]
      rfl
    · show (m.entries.eraseIdx p).length = m.entries.length - 1
      exact List.length_eraseIdx_of_lt hplt
    · intro j hj
      show (m.entries.eraseIdx p)[j]? = m.entries[j]?
      rw [List.getElem?_eraseIdx, if_pos hj]
    · intro j h1 h2
      show (m.entries.eraseIdx p)[j - 1]? = m.entries[j]?
      rw [List.getElem?_eraseIdx, if_neg (by omega)]
      have hjeq : j - 1 + 1 = j := by omega
      rw [hjeq]
  · refine ⟨{ mapABC with entries := [⟨1, "a", 100⟩, ⟨1, "c", 300⟩] },
      rfl, rfl, rfl, by decide, by decide⟩

/-- C4 witness: the universal part applied to `mapABC` at position 1. -/
theorem c4_shift_remove_entry_spec_witness :
    ∃ m', RawOccupiedEntryMut.shift_remove_entry mapABC 1 = some (("b", 200), m') ∧
      m'.entries.length = mapABC.entries.length - 1 ∧
      (∀ j, j < 1 → m'.entries[j]? = mapABC.entries[j]?) ∧
      (∀ j, 1 < j → j < mapABC.entries.length →
        m'.entries[j - 1]? = mapABC.entries[j]?) :=
  c4_shift_remove_entry_spec.1 String Nat mapABC 1 ⟨1, "b", 200⟩ (by decide)

/-- C9: replacing the value of an Occupied raw entry with `insert(new_value)`
returns the old stored value, stores the new one at the same position under
the same key and cached hash, and leaves the length and every other entry
(hence the whole iteration order) unchanged; in particular, spec scenario B:
on the map built from `("a",100)`, `("b",200)`, `("c",300)`, `insert(1111)`
on the Occupied entry for `"a"` returns 100, the stored value for `"a"`
becomes 1111, the length stays 3, and the order is unchanged. -/
theorem c9_occupied_insert_spec :
    (∀ (K V : Type) (m : IndexMap K V) (p : Nat) (b : Bucket K V) (v : V),
      m.entries[p]? = some b →
      ∃ m', RawOccupiedEntryMut.insert m p v = some (b.value, m') ∧
        m'.entries.length = m.entries.length ∧
        m'.entries[p]? = some ⟨b.hash, b.key, v⟩ ∧
        (∀ j, j ≠ p → m'.entries[j]? = m.entries[j]?) ∧
        m'.hashFn = m.hashFn ∧ m'.equivFn = m.equivFn) ∧
    (∃ mB, RawOccupiedEntryMut.insert mapABC 0 1111 = some (100, mB) ∧
      mB.entries = [⟨1, "a", 1111⟩, ⟨1, "b", 200⟩, ⟨1, "c", 300⟩] ∧
      mB.entries.length = 3 ∧
      RawEntryBuilderMut.from_key mapABC "a" = RawEntryMut.Occupied 0) := by
  constructor
  · intro K V m p b v hp
    have hplt : p < m.entries.length := by
      by_contra hge
      rw [List.getElem?_eq_none (Nat.le_of_not_lt hge)] at hp
      cases hp
    refine ⟨{ m with entries := m.entries.set p { b with value := v } },
      ?_, ?_, ?_, ?_, rfl, rfl⟩
    · unfold RawOccupiedEntryMut.insert
      rw [hp]
      rfl
    · show (m.entries.set p { b with value := v }).length = m.entries.length
      exact List.length_set m.entries p _
    · show (m.entries.set p { b with value := v })[p]? = some ⟨b.hash, b.key, v⟩
      rw [List.getElem?_set, if_pos rfl, if_pos hplt]
    · intro j hj
      show (m.entries.set p { b with value := v })[j]? = m.entries[j]?
      rw [List.getElem?_set, if_neg (fun he => hj he.symm)]
  · refine ⟨{ mapABC with entries := [⟨1, "a", 1111⟩, ⟨1, "b", 200⟩, ⟨1, "c", 300⟩] },
      rfl, rfl, rfl, by decide⟩

/-- C9 witness: the universal part applied to `mapABC` at position 0. -/
theorem c9_occupied_insert_spec_witness :
    ∃ m', RawOccupiedEntryMut.insert mapABC 0 1111 = some (100, m') ∧
      m'.entries.length = mapABC.entries.length ∧
      m'.entries[0]? = some ⟨1, "a", 1111⟩ ∧
      (∀ j, j ≠ 0 → m'.entries[j]? = mapABC.entries[j]?) ∧
      m'.hashFn = mapABC.hashFn ∧ m'.equivFn = mapABC.equivFn :=
  c9_occupied_insert_spec.1 String Nat mapABC 0 ⟨1, "a", 100⟩ 1111 (by decide)

end IndexMapModel
